import Mathlib

/-!
Verification development for the rpicam streaming core
(`src/backend/rpicam_streaming.py` of the Pi-Ai-Camera repository).

The embedding models:
* the MJPEG frame splitter of `RPiCamStreaming._read_mjpeg_stream`
  (byte stream as `List Nat`, `bytes.find` as a two-byte marker search);
* the MobileNet-SSD tensor decoder and the temporal debouncer of
  `RPiCamStreaming._extract_detections` (tensor values, which are Python
  floats, are modelled as exact rationals `ℚ`; Python `round(x, n)` is
  modelled with Mathlib's `round`, which differs from Python only in the
  tie-breaking rule at exact half-ULPs — immaterial to the properties here);
* the metadata tail reader of `RPiCamStreaming._monitor_metadata` /
  `_parse_metadata_content` (file as `List Char`; `json.loads` acceptance is
  modelled by a small JSON recogniser);
* the frame ring buffer (`collections.deque(maxlen=4500)`) and
  `get_recent_frames`;
* a state machine for the engine-level slots read by `get_frame` /
  `get_detections`.
-/

set_option maxRecDepth 40000

namespace RPiCam

/-! ### Data model: detections (`_extract_detections` output dicts) -/

/-- Python `int(q)` on a float: truncation toward zero. -/
def truncQ (q : ℚ) : ℤ :=
  if q < 0 then -⌊-q⌋ else ⌊q⌋

/-- Python `round(q, n)`: rounding to `n` decimal places. -/
def roundTo (n : Nat) (q : ℚ) : ℚ :=
  ((round (q * (10 : ℚ) ^ n) : ℤ) : ℚ) / (10 : ℚ) ^ n

/-- One detection dict as appended by `_extract_detections`:
`{'class': ..., 'class_id': ..., 'confidence': ..., 'bbox': [x1, y1, x2, y2]}`. -/
structure Detection where
  label : String
  class_id : ℤ
  confidence : ℚ
  bbox : List ℚ
deriving DecidableEq

/-! ### Temporal debouncer (`_extract_detections`, temporal filtering part)

Per metadata record the code computes `has_person = len(detections) > 0`,
increments `_consecutive_person_frames` on `True` and resets it to `0` on
`False`, then publishes `detections` if the counter reached
`_min_consecutive_frames = 3` and `[]` otherwise.  (`_detection_history` is
appended to but never read, so it is not modelled.) -/

/-- The consecutive-person counter after folding a list of per-record
decoder outputs, starting from counter value `c`. -/
def debounceCounter (c : Nat) (recs : List (List Detection)) : Nat :=
  recs.foldl (fun c d => if 0 < d.length then c + 1 else 0) c

/-- The published detection list for each successive record, starting from
counter value `c` (the engine starts at `0`). -/
def debounceOut (c : Nat) : List (List Detection) → List (List Detection)
  | [] => []
  | d :: ds =>
    (if 3 ≤ (if 0 < d.length then c + 1 else 0) then d else []) ::
      debounceOut (if 0 < d.length then c + 1 else 0) ds

/-- The length of the run of consecutive records with at least one
detection ending at the last record (the spec's "current run of
consecutive trues"). -/
def trailingTrueRun (recs : List (List Detection)) : Nat :=
  (recs.reverse.takeWhile (fun d => !d.isEmpty)).length

lemma debounceCounter_append_one (c : Nat) (l : List (List Detection))
    (d : List Detection) :
    debounceCounter c (l ++ [d]) =
      if 0 < d.length then debounceCounter c l + 1 else 0 := by
  simp [debounceCounter, List.foldl_append]

lemma trailingTrueRun_append_one (l : List (List Detection))
    (d : List Detection) :
    trailingTrueRun (l ++ [d]) =
      if 0 < d.length then trailingTrueRun l + 1 else 0 := by
  simp only [trailingTrueRun, List.reverse_append, List.reverse_cons,
    List.reverse_nil, List.nil_append, List.cons_append, List.takeWhile_cons]
  cases d with
  | nil => simp
  | cons a t => simp

/-- The code's consecutive counter equals the length of the trailing run of
nonempty records. -/
lemma debounceCounter_eq_trailingTrueRun (recs : List (List Detection)) :
    debounceCounter 0 recs = trailingTrueRun recs := by
  induction recs using List.reverseRecOn with
  | nil => simp [debounceCounter, trailingTrueRun]
  | append_singleton l d ih =>
    rw [debounceCounter_append_one, trailingTrueRun_append_one, ih]

/-- Characterisation of the published list at index `i`: it is the decoder
output of record `i` if the counter after record `i` reached 3, else `[]`. -/
lemma debounceOut_getElem? (recs : List (List Detection)) :
    ∀ (c i : Nat) (d : List Detection), recs[i]? = some d →
      (debounceOut c recs)[i]? =
        some (if 3 ≤ debounceCounter c (recs.take (i+1)) then d else []) := by
  induction recs with
  | nil => intro c i d h; simp at h
  | cons r rs ih =>
    intro c i d h
    cases i with
    | zero =>
      simp only [List.getElem?_cons_zero, Option.some.injEq] at h
      subst h
      simp [debounceOut, debounceCounter]
    | succ n =>
      simp only [List.getElem?_cons_succ] at h
      have := ih (if 0 < r.length then c + 1 else 0) n d h
      simpa [debounceOut, debounceCounter] using this

/-! ### Tensor decoder (`_extract_detections`, per-slot part)

The MobileNet-SSD output tensor layout (from the source comments):
indices `[0, 400)` hold 100 bounding boxes `(y1, x1, y2, x2)`,
`[400, 500)` hold 100 confidences, `[500, 600)` hold 100 class ids,
terminated by the sentinel value `100.0`.  The loop runs over slots
`i ∈ [0, 100)` and `break`s at the first slot whose class value is absent
or equal to the sentinel. -/

/-- Whether the loop `break`s at slot `i`: `class_val is None or
class_val == 100.0`. -/
def sentinelAt (t : List ℚ) (i : Nat) : Bool :=
  match t[500 + i]? with
  | none => true
  | some v => decide (v = 100)

/-- The detection emitted for a (non-sentinel) slot `i`, `none` when one of
the `continue` filters fires.  Mirrors the filter chain of the source:
class id (`int(class_val) != 0`), confidence (`< MIN_CONFIDENCE = 0.10`),
missing bbox values, bbox range (`0 ≤ v ≤ 1`), bbox ordering
(`x2 ≤ x1 or y2 ≤ y1`), minimum dimensions (`width < 0.05 or
height < 0.20`), minimum area (`< 0.04`). -/
def slotCandidate (t : List ℚ) (i : Nat) : Option Detection :=
  match t[500 + i]? with
  | none => none
  | some cv =>
    if truncQ cv ≠ 0 then none
    else
      match t[400 + i]? with
      | none => none
      | some conf =>
        if conf < 1/10 then none
        else
          match t[4*i]?, t[4*i + 1]?, t[4*i + 2]?, t[4*i + 3]? with
          | some y1, some x1, some y2, some x2 =>
            if 0 ≤ x1 ∧ x1 ≤ 1 ∧ 0 ≤ y1 ∧ y1 ≤ 1 ∧
                0 ≤ x2 ∧ x2 ≤ 1 ∧ 0 ≤ y2 ∧ y2 ≤ 1 then
              if x2 ≤ x1 ∨ y2 ≤ y1 then none
              else if x2 - x1 < 5/100 ∨ y2 - y1 < 20/100 then none
              else if (x2 - x1) * (y2 - y1) < 4/100 then none
              else some ⟨"person", 0, roundTo 2 conf,
                [roundTo 3 x1, roundTo 3 y1, roundTo 3 x2, roundTo 3 y2]⟩
            else none
          | _, _, _, _ => none

/-- The slot loop: `fuel` remaining slots starting at slot `i`
(`for i in range(100)` with `break` at the sentinel). -/
def extractSlots (t : List ℚ) : Nat → Nat → List Detection
  | 0, _ => []
  | fuel+1, i =>
    if sentinelAt t i then []
    else
      match slotCandidate t i with
      | none => extractSlots t fuel (i+1)
      | some d => d :: extractSlots t fuel (i+1)

/-- `_extract_detections` per-record decoding: records whose tensor is
missing or shorter than 600 values are rejected up front
(`if not tensor or len(tensor) < 600: return`). -/
def extract_detections (t : List ℚ) : List Detection :=
  if 600 ≤ t.length then extractSlots t 100 0 else []

lemma extractSlots_succ (t : List ℚ) (fuel i : Nat) :
    extractSlots t (fuel+1) i =
      if sentinelAt t i then []
      else
        match slotCandidate t i with
        | none => extractSlots t fuel (i+1)
        | some d => d :: extractSlots t fuel (i+1) := rfl

/-! ### Rounding lemmas for the stored (rounded) detection fields -/

lemma round_mono_q {a b : ℚ} (h : a ≤ b) : round a ≤ round b := by
  rw [round_eq, round_eq]
  exact Int.floor_mono (by linarith)

lemma roundTo_nonneg {q : ℚ} {n : Nat} (h : 0 ≤ q) : 0 ≤ roundTo n q := by
  unfold roundTo
  have h10 : (0:ℚ) < (10:ℚ) ^ n := by positivity
  apply div_nonneg _ h10.le
  have hr : round ((0:ℚ)) ≤ round (q * (10:ℚ) ^ n) :=
    round_mono_q (by positivity)
  rw [round_zero] at hr
  exact_mod_cast hr

lemma roundTo_le_one {q : ℚ} {n : Nat} (h : q ≤ 1) : roundTo n q ≤ 1 := by
  unfold roundTo
  have h10 : (0:ℚ) < (10:ℚ) ^ n := by positivity
  rw [div_le_one h10]
  have hr : round (q * (10:ℚ) ^ n) ≤ round ((((10:ℤ) ^ n : ℤ)) : ℚ) :=
    round_mono_q (by push_cast; nlinarith)
  rw [round_intCast] at hr
  have : ((round (q * (10:ℚ) ^ n) : ℤ) : ℚ) ≤ (((10:ℤ) ^ n : ℤ) : ℚ) := by
    exact_mod_cast hr
  push_cast at this
  linarith

lemma roundTo_ge_tenth {q : ℚ} (h : 1/10 ≤ q) : 1/10 ≤ roundTo 2 q := by
  unfold roundTo
  rw [le_div_iff₀ (by norm_num : (0:ℚ) < (10:ℚ) ^ (2:Nat))]
  have hr : round ((((10:ℤ)) : ℚ)) ≤ round (q * (10:ℚ) ^ (2:Nat)) :=
    round_mono_q (by push_cast; nlinarith)
  rw [round_intCast] at hr
  have h2 : (((10:ℤ)) : ℚ) ≤ ((round (q * (10:ℚ) ^ (2:Nat)) : ℤ) : ℚ) := by
    exact_mod_cast hr
  norm_num at h2 ⊢
  linarith

lemma roundTo3_gap {a b : ℚ} (k : ℤ) (hk : 0 < k)
    (h : a + (k:ℚ)/1000 ≤ b) : roundTo 3 a < roundTo 3 b := by
  unfold roundTo
  apply div_lt_div_of_pos_right ?_ (by norm_num : (0:ℚ) < (10:ℚ) ^ (3:Nat))
  have hmul : a * (10:ℚ) ^ (3:Nat) + (k:ℚ) ≤ b * (10:ℚ) ^ (3:Nat) := by
    nlinarith
  have h2 : round (a * (10:ℚ) ^ (3:Nat) + (k:ℚ)) ≤
      round (b * (10:ℚ) ^ (3:Nat)) := round_mono_q hmul
  rw [round_add_int] at h2
  have h3 : round (a * (10:ℚ) ^ (3:Nat)) < round (b * (10:ℚ) ^ (3:Nat)) := by
    omega
  exact_mod_cast h3

/-! ### Structure of extracted detections -/

lemma mem_extractSlots {t : List ℚ} {d : Detection} :
    ∀ {fuel i : Nat}, d ∈ extractSlots t fuel i →
      ∃ j, slotCandidate t j = some d := by
  intro fuel
  induction fuel with
  | zero => intro i h; simp [extractSlots] at h
  | succ n ih =>
    intro i h
    rw [extractSlots_succ] at h
    by_cases hs : sentinelAt t i = true
    · simp [hs] at h
    · rw [if_neg hs] at h
      cases hsc : slotCandidate t i with
      | none => rw [hsc] at h; exact ih h
      | some d0 =>
        rw [hsc] at h
        rcases List.mem_cons.mp h with rfl | h'
        · exact ⟨i, hsc⟩
        · exact ih h'

lemma slotCandidate_eq_some {t : List ℚ} {i : Nat} {d : Detection}
    (h : slotCandidate t i = some d) :
    d.label = "person" ∧ d.class_id = 0 ∧ 1/10 ≤ d.confidence ∧
    ∃ a b c e, d.bbox = [a, b, c, e] ∧ (0 ≤ a ∧ a ≤ 1) ∧ (0 ≤ b ∧ b ≤ 1) ∧
      (0 ≤ c ∧ c ≤ 1) ∧ (0 ≤ e ∧ e ≤ 1) ∧ a < c ∧ b < e := by
  unfold slotCandidate at h
  split at h
  case h_1 => exact absurd h (by simp)
  case h_2 cv hcv =>
    split at h
    case isTrue => exact absurd h (by simp)
    case isFalse hcls =>
      split at h
      case h_1 => exact absurd h (by simp)
      case h_2 conf hconf =>
        split at h
        case isTrue => exact absurd h (by simp)
        case isFalse hle =>
          split at h
          case h_2 => exact absurd h (by simp)
          case h_1 vy1 vx1 vy2 vx2 e1 e2 e3 e4 =>
            split at h
            case isFalse => exact absurd h (by simp)
            case isTrue hrange =>
              split at h
              case isTrue => exact absurd h (by simp)
              case isFalse hord =>
                split at h
                case isTrue => exact absurd h (by simp)
                case isFalse hsize =>
                  split at h
                  case isTrue => exact absurd h (by simp)
                  case isFalse harea =>
                    rw [Option.some.injEq] at h
                    subst h
                    push_neg at hord hsize
                    obtain ⟨hx1, hx1', hy1, hy1', hx2, hx2', hy2, hy2'⟩ := hrange
                    exact ⟨rfl, rfl, roundTo_ge_tenth (by linarith), _, _, _, _,
                      rfl, ⟨roundTo_nonneg hx1, roundTo_le_one hx1'⟩,
                      ⟨roundTo_nonneg hy1, roundTo_le_one hy1'⟩,
                      ⟨roundTo_nonneg hx2, roundTo_le_one hx2'⟩,
                      ⟨roundTo_nonneg hy2, roundTo_le_one hy2'⟩,
                      roundTo3_gap 50 (by norm_num) (by linarith [hsize.1]),
                      roundTo3_gap 200 (by norm_num) (by linarith [hsize.2])⟩

/-- Claim C3: every detection the decoder outputs has confidence at least
the configured threshold 0.10, all four bbox coordinates in `[0, 1]`, and a
non-degenerate box (`x_max > x_min`, `y_max > y_min`); the stored fields
are the source's `round(conf, 2)` / `round(coord, 3)` values. -/
theorem c3_decoder_filters (t : List ℚ) (d : Detection)
    (hd : d ∈ extract_detections t) :
    1/10 ≤ d.confidence ∧
    ∃ a b c e, d.bbox = [a, b, c, e] ∧ (0 ≤ a ∧ a ≤ 1) ∧ (0 ≤ b ∧ b ≤ 1) ∧
      (0 ≤ c ∧ c ≤ 1) ∧ (0 ≤ e ∧ e ≤ 1) ∧ a < c ∧ b < e := by
  unfold extract_detections at hd
  split at hd
  · obtain ⟨j, hj⟩ := mem_extractSlots hd
    obtain ⟨-, -, hconf, rest⟩ := slotCandidate_eq_some hj
    exact ⟨hconf, rest⟩
  · exact absurd hd (by simp)

lemma extractSlots_eq_takeWhile (t : List ℚ) :
    ∀ (fuel i : Nat),
      extractSlots t fuel i =
        ((List.range' i fuel).takeWhile (fun j => !sentinelAt t j)).filterMap
          (slotCandidate t) := by
  intro fuel
  induction fuel with
  | zero => intro i; simp [extractSlots, List.range']
  | succ n ih =>
    intro i
    rw [extractSlots_succ, List.range'_succ, List.takeWhile_cons]
    by_cases hs : sentinelAt t i = true
    · simp [hs]
    · rw [if_neg hs]
      have hs' : (!sentinelAt t i) = true := by
        simp [Bool.not_eq_true'] at hs ⊢
        exact hs
      rw [if_pos hs', List.filterMap_cons]
      cases hsc : slotCandidate t i with
      | none => rw [ih (i+1)]
      | some d => rw [ih (i+1)]

/-- Claim C4: the decoder scans slots in increasing index order and stops at
the first sentinel slot (class value `100.0`, or absent); no slot at or
after the first sentinel contributes a detection, and the output is the
in-order filtering of the slots strictly before the sentinel (no
re-sorting). -/
theorem c4_sentinel_order (t : List ℚ) (h : 600 ≤ t.length) :
    extract_detections t =
      ((List.range 100).takeWhile (fun j => !sentinelAt t j)).filterMap
        (slotCandidate t) := by
  rw [extract_detections, if_pos h, List.range_eq_range',
    extractSlots_eq_takeWhile]

/-- Claim C10 (engine part and decoder part): every detection produced by
the decoder is labelled `person` with class id 0; a slot whose class value
truncates to a nonzero class id is discarded before the confidence, range
and size filters, whatever the rest of the tensor holds; and each published
list of the debouncer is either empty or one of the decoder's per-record
lists (so every published detection comes from the decoder). -/
theorem c10_person_only :
    (∀ (t : List ℚ) (d : Detection), d ∈ extract_detections t →
      d.label = "person" ∧ d.class_id = 0) ∧
    (∀ (t : List ℚ) (i : Nat) (cv : ℚ), t[500 + i]? = some cv →
      truncQ cv ≠ 0 → slotCandidate t i = none) ∧
    (∀ (c : Nat) (recs : List (List Detection)) (out : List Detection),
      out ∈ debounceOut c recs → out = [] ∨ out ∈ recs) := by
  refine ⟨?_, ?_, ?_⟩
  · intro t d hd
    unfold extract_detections at hd
    split at hd
    · obtain ⟨j, hj⟩ := mem_extractSlots hd
      obtain ⟨h1, h2, -⟩ := slotCandidate_eq_some hj
      exact ⟨h1, h2⟩
    · exact absurd hd (by simp)
  · intro t i cv hcv hne
    simp [slotCandidate, hcv, hne]
  · intro c recs
    induction recs generalizing c with
    | nil => intro out h; simp [debounceOut] at h
    | cons r rs ih =>
      intro out h
      rw [debounceOut] at h
      rcases List.mem_cons.mp h with rfl | h'
      · by_cases h3 : 3 ≤ (if 0 < r.length then c + 1 else 0)
        · rw [if_pos h3]; right; exact List.mem_cons_self ..
        · rw [if_neg h3]; left; rfl
      · rcases ih _ _ h' with h'' | h''
        · left; exact h''
        · right; exact List.mem_cons_of_mem _ h''

/-! ### A concrete 600-value tensor used to instantiate the theorems:
slot 0 holds a person box `(y1, x1, y2, x2) = (0, 0, 1/2, 1/2)` with
confidence `1/2`; slot 1 carries the sentinel class value `100`. -/

def testTensor : List ℚ :=
  [0, 0, mkRat 1 2, mkRat 1 2] ++ List.replicate 396 0 ++
    (mkRat 1 2 :: List.replicate 99 0) ++ (0 :: 100 :: List.replicate 98 0)

/-- The detection the decoder builds from slot 0 of `testTensor`. -/
def decodedDet : Detection :=
  ⟨"person", 0, roundTo 2 (mkRat 1 2),
   [roundTo 3 0, roundTo 3 0, roundTo 3 (mkRat 1 2), roundTo 3 (mkRat 1 2)]⟩

lemma tt0 : testTensor[0]? = some 0 := by decide

lemma tt1 : testTensor[1]? = some 0 := by decide

lemma tt2 : testTensor[2]? = some (mkRat 1 2) := by decide

lemma tt3 : testTensor[3]? = some (mkRat 1 2) := by decide

lemma tt400 : testTensor[400]? = some (mkRat 1 2) := by decide

lemma tt500 : testTensor[500]? = some 0 := by decide

lemma tsent0 : sentinelAt testTensor 0 = false := by decide

lemma tsent1 : sentinelAt testTensor 1 = true := by decide

lemma tslot0 : slotCandidate testTensor 0 = some decodedDet := by
  norm_num [slotCandidate, tt500, tt400, tt0, tt1, tt2, tt3, truncQ,
    Rat.mkRat_eq_div, decodedDet]

lemma extract_testTensor : extract_detections testTensor = [decodedDet] := by
  have h600 : (600:Nat) ≤ testTensor.length := by decide
  rw [extract_detections, if_pos h600]
  rw [show (100:Nat) = 99 + 1 from rfl, extractSlots_succ]
  rw [show (99:Nat) = 98 + 1 from rfl]
  simp [tsent0, tslot0, extractSlots_succ, tsent1]

/-- Concrete instantiation of `c3_decoder_filters` at `testTensor`. -/
theorem c3_witness :
    decodedDet ∈ extract_detections testTensor ∧
      (1/10 ≤ decodedDet.confidence ∧
        ∃ a b c e, decodedDet.bbox = [a, b, c, e] ∧ (0 ≤ a ∧ a ≤ 1) ∧
          (0 ≤ b ∧ b ≤ 1) ∧ (0 ≤ c ∧ c ≤ 1) ∧ (0 ≤ e ∧ e ≤ 1) ∧
          a < c ∧ b < e) :=
  have hm : decodedDet ∈ extract_detections testTensor := by
    rw [extract_testTensor]; exact List.mem_cons_self ..
  ⟨hm, c3_decoder_filters testTensor decodedDet hm⟩

/-- Concrete instantiation of `c4_sentinel_order` at `testTensor`. -/
theorem c4_witness :
    extract_detections testTensor =
      ((List.range 100).takeWhile (fun j => !sentinelAt testTensor j)).filterMap
        (slotCandidate testTensor) :=
  c4_sentinel_order testTensor (by decide)

/-- A 501-value tensor whose slot 0 carries class value 5 (not a person). -/
def badClassTensor : List ℚ :=
  List.replicate 500 0 ++ [5]

/-- Concrete instantiation of `c10_person_only`: the decoded sample is a
person detection, and a slot with class value 5 is discarded. -/
theorem c10_witness :
    (decodedDet.label = "person" ∧ decodedDet.class_id = 0) ∧
      slotCandidate badClassTensor 0 = none :=
  ⟨c10_person_only.1 testTensor decodedDet
      (by rw [extract_testTensor]; exact List.mem_cons_self ..),
    c10_person_only.2.1 badClassTensor 0 5 (by decide)
      (by norm_num [truncQ])⟩

/-- A sample detection dict, as built by the decoder for a slot with class 0,
confidence 0.5 and box `(x1, y1, x2, y2) = (0, 0, 0.5, 0.5)`. -/
def sampleDet : Detection :=
  ⟨"person", 0, mkRat 1 2, [0, 0, mkRat 1 2, mkRat 1 2]⟩

/-! ### Frame ring buffer (`deque(maxlen=4500)` and `get_recent_frames`) -/

/-- `collections.deque(maxlen=m).append(x)`: append on the right, dropping
from the left when the maximum length is exceeded. -/
def dequeAppend {α : Type} (m : Nat) (b : List α) (x : α) : List α :=
  let b2 := b ++ [x]
  b2.drop (b2.length - m)

/-- The `_frame_buffer` contents after pushing the entries of `es` in order
into an initially empty `deque(maxlen=4500)` (as `_read_mjpeg_stream` does
with `(time.time(), frame)` pairs). -/
def buildBuffer (es : List (ℚ × List Nat)) : List (ℚ × List Nat) :=
  es.foldl (dequeAppend 4500) []

/-- The time of the most recent push (stands for the current time in the
age-invariant claim). -/
def lastTime (es : List (ℚ × List Nat)) : ℚ :=
  es.foldl (fun a e => max a e.1) 0

/-- The last `m` elements of a list. -/
def takeR {α : Type} (m : Nat) (l : List α) : List α :=
  l.drop (l.length - m)

/-- `get_recent_frames(seconds)`: linear scan of the buffer keeping entries
with `timestamp >= time.time() - seconds`, returned as
`(int(timestamp), frame)` pairs in buffer order. -/
def get_recent_frames (buf : List (ℚ × List Nat)) (now : ℚ)
    (seconds : ℤ) : List (ℤ × List Nat) :=
  buf.foldl
    (fun acc e => if now - (seconds:ℚ) ≤ e.1 then acc ++ [(truncQ e.1, e.2)]
      else acc) []

lemma takeR_step {α : Type} (m : Nat) (hm : 0 < m) (u : List α) (x : α) :
    takeR m (takeR m u ++ [x]) = takeR m (u ++ [x]) := by
  by_cases hu : u.length ≤ m
  · have h0 : takeR m u = u := by
      unfold takeR
      rw [show u.length - m = 0 by omega, List.drop_zero]
    rw [h0]
  · push_neg at hu
    have hA : (u.drop (u.length - m)).length = m := by
      rw [List.length_drop]; omega
    unfold takeR
    rw [List.length_append, List.length_append, hA]
    rw [List.drop_append_eq_append_drop, List.drop_append_eq_append_drop]
    rw [List.drop_drop, hA]
    congr 1
    · congr 1
      simp only [List.length_singleton]
      omega
    · congr 1
      simp only [List.length_singleton]
      omega

lemma foldl_dequeAppend {α : Type} (m : Nat) (hm : 0 < m) (es : List α) :
    es.foldl (dequeAppend m) [] = takeR m es := by
  induction es using List.reverseRecOn with
  | nil => simp [takeR]
  | append_singleton l e ih =>
    rw [List.foldl_append, List.foldl_cons, List.foldl_nil, ih]
    exact takeR_step m hm l e

lemma buildBuffer_eq_takeR (es : List (ℚ × List Nat)) :
    buildBuffer es = takeR 4500 es :=
  foldl_dequeAppend 4500 (by norm_num) es

lemma foldl_push_filter {α β : Type} (P : α → Prop) [DecidablePred P]
    (g : α → β) (l : List α) :
    ∀ acc, l.foldl (fun a e => if P e then a ++ [g e] else a) acc =
      acc ++ (l.filter (fun e => decide (P e))).map g := by
  induction l with
  | nil => intro acc; simp
  | cons x xs ih =>
    intro acc
    rw [List.foldl_cons]
    by_cases hx : P x
    · rw [if_pos hx, ih]
      simp [List.filter_cons, hx]
    · rw [if_neg hx, ih]
      simp [List.filter_cons, hx]

/-- Claim C6 counterexample: the buffer is a pure capacity-bounded deque;
it does not evict by age.  A frame pushed at time 0 is still in the buffer
after a push at time 1000, violating the claimed 300-second age invariant
(formulated without subtraction: `now ≤ ts + 300`). -/
theorem c6_counterexample :
    ¬ (∀ (es : List (ℚ × List Nat)) (e : ℚ × List Nat),
        e ∈ buildBuffer es → lastTime es ≤ e.1 + 300) := by
  intro h
  have hmem : ((0:ℚ), ([0]:List Nat)) ∈
      buildBuffer [(0, [0]), (1000, [1])] := by decide
  have := h [(0, [0]), (1000, [1])] (0, [0]) hmem
  norm_num [lastTime] at this

/-- Claim C6 amended: the ring buffer is bounded by element count only
(never more than 4500 entries); arbitrarily old entries may remain, age
filtering happens only at read time in `get_recent_frames`. -/
theorem c6_amended (es : List (ℚ × List Nat)) :
    (buildBuffer es).length ≤ 4500 := by
  rw [buildBuffer_eq_takeR]
  unfold takeR
  rw [List.length_drop]
  omega

/-- Claim C8: pushing `4500 + k` entries leaves exactly the last 4500 in
order (the oldest `k` evicted first); and `get_recent_frames` returns
exactly the buffered entries with timestamp at least `now - seconds`, in
insertion order, with the timestamp truncated to an integer as the source
does (`int(timestamp)`). -/
theorem c8_ring_buffer :
    (∀ (es : List (ℚ × List Nat)) (k : Nat), es.length = 4500 + k →
      buildBuffer es = es.drop k ∧ (buildBuffer es).length = 4500) ∧
    (∀ (buf : List (ℚ × List Nat)) (now : ℚ) (seconds : ℤ),
      get_recent_frames buf now seconds =
        (buf.filter (fun e => decide (now - (seconds:ℚ) ≤ e.1))).map
          (fun e => (truncQ e.1, e.2))) := by
  constructor
  · intro es k hk
    have hb : buildBuffer es = es.drop (es.length - 4500) := by
      rw [buildBuffer_eq_takeR]; rfl
    constructor
    · rw [hb, hk, show 4500 + k - 4500 = k from by omega]
    · rw [hb, List.length_drop]
      omega
  · intro buf now seconds
    unfold get_recent_frames
    simpa using
      foldl_push_filter (fun e => now - (seconds:ℚ) ≤ e.1)
        (fun e => (truncQ e.1, e.2)) buf []

/-- Concrete instantiation of `c8_ring_buffer`: 4501 pushes leave 4500
entries, the first one evicted. -/
theorem c8_witness :
    buildBuffer (List.replicate 4501 ((0:ℚ), ([] : List Nat))) =
      (List.replicate 4501 ((0:ℚ), ([] : List Nat))).drop 1 ∧
    (buildBuffer (List.replicate 4501 ((0:ℚ), ([] : List Nat)))).length =
      4500 :=
  c8_ring_buffer.1 (List.replicate 4501 ((0:ℚ), ([] : List Nat))) 1
    (by rw [List.length_replicate])

/-- Claim C2: starting from the reset state (counter 0), while the current
run of consecutive records with detections is shorter than 3, the published
list is empty; once the run reaches 3 (and on every later consecutive true
record) the published list is the decoder's current-frame detections
verbatim; a record with no detections resets the run to 0 and publishes
an empty list. -/
theorem c2_debouncer (recs : List (List Detection)) (i : Nat)
    (d : List Detection) (h : recs[i]? = some d) :
    (d = [] → trailingTrueRun (recs.take (i+1)) = 0 ∧
      (debounceOut 0 recs)[i]? = some []) ∧
    (trailingTrueRun (recs.take (i+1)) < 3 →
      (debounceOut 0 recs)[i]? = some []) ∧
    (3 ≤ trailingTrueRun (recs.take (i+1)) →
      (debounceOut 0 recs)[i]? = some d) := by
  have hc := debounceOut_getElem? recs 0 i d h
  rw [debounceCounter_eq_trailingTrueRun] at hc
  have htake : recs.take (i+1) = recs.take i ++ [d] := by
    rw [List.take_succ, h]
    rfl
  refine ⟨?_, ?_, ?_⟩
  · intro hd
    have hz : trailingTrueRun (recs.take (i+1)) = 0 := by
      rw [htake, trailingTrueRun_append_one, hd]
      simp
    refine ⟨hz, ?_⟩
    rw [hc, if_neg (by omega)]
  · intro hlt
    rw [hc, if_neg (by omega)]
  · intro hge
    rw [hc, if_pos hge]

/-- Concrete instantiation of `c2_debouncer`: three consecutive detecting
records reach the threshold at the third record, which is published
verbatim. -/
theorem c2_witness :
    (debounceOut 0 [[sampleDet], [sampleDet], [sampleDet]])[2]? =
      some [sampleDet] :=
  (c2_debouncer [[sampleDet], [sampleDet], [sampleDet]] 2 [sampleDet]
    (by decide)).2.2 (by decide)

/-! ### MJPEG frame splitter (`_read_mjpeg_stream`)

Byte stream as `List Nat`.  The loop body is, per chunk read from stdout:

```
buffer += chunk
while b"\xff\xd8" in buffer and b"\xff\xd9" in buffer:
    start = buffer.find(b"\xff\xd8")
    end = buffer.find(b"\xff\xd9", start) + 2
    if end > start:
        frame = buffer[start:end]
        buffer = buffer[end:]
        ...emit frame...
    else:
        break
```

`findMarker m` models `bytes.find(b"\xff" + m)` (index of the leftmost
two-byte occurrence, `none` for Python's `-1`); `findMarkerFrom` models
`find` with a start index.  Each executed loop body removes `end ≥ 1`
bytes from the buffer, so the loop runs at most `len(buffer)` times;
`extractFrames` therefore runs the fuelled loop with fuel
`buffer.length`, which is exact for every input. -/

/-- A two-byte marker `FF m` occurs in `s` at index `i`. -/
def MarkerAt (m : Nat) (s : List Nat) (i : Nat) : Prop :=
  s[i]? = some 0xFF ∧ s[i+1]? = some m

instance (m : Nat) (s : List Nat) (i : Nat) : Decidable (MarkerAt m s i) := by
  unfold MarkerAt
  infer_instance

/-- Index of the leftmost occurrence of the marker `FF m` (Python
`buffer.find(marker)`, with `none` for `-1`). -/
def findMarker (m : Nat) : List Nat → Option Nat
  | [] => none
  | a :: rest =>
    if a = 0xFF ∧ rest.head? = some m then some 0
    else (findMarker m rest).map (· + 1)

/-- Python `buffer.find(marker, start)`: leftmost occurrence at an index
`≥ start`, as an absolute index. -/
def findMarkerFrom (m : Nat) (s : List Nat) (start : Nat) : Option Nat :=
  (findMarker m (s.drop start)).map (· + start)

/-- One run of the splitter's inner `while` loop with the given fuel. -/
def extractFramesAux : Nat → List Nat → List (List Nat) × List Nat
  | 0, buf => ([], buf)
  | fuel+1, buf =>
    if (findMarker 0xD8 buf).isSome && (findMarker 0xD9 buf).isSome then
      let s := (findMarker 0xD8 buf).getD 0
      let e := match findMarkerFrom 0xD9 buf s with
               | some j => j + 2
               | none => 1
      if s < e then
        let r := extractFramesAux fuel (buf.drop e)
        (((buf.drop s).take (e - s)) :: r.1, r.2)
      else ([], buf)
    else ([], buf)

/-- The frames extracted from (and the remaining content of) the
accumulated buffer after one chunk arrival; fuel `buf.length` is exact
since every iteration consumes at least one byte. -/
def extractFrames (buf : List Nat) : List (List Nat) × List Nat :=
  extractFramesAux buf.length buf

/-- Feeding a sequence of stdout chunks through the reader loop: returns
the frames emitted (in order) and the final unconsumed buffer. -/
def feedChunks : List (List Nat) → List Nat → List (List Nat) × List Nat
  | [], buf => ([], buf)
  | c :: cs, buf =>
    let r := extractFrames (buf ++ c)
    let r2 := feedChunks cs r.2
    (r.1 ++ r2.1, r2.2)

/-- A valid JPEG frame in the sense of claim C1: at least 4 bytes, the
start marker `FF D8` occurs exactly at index 0, the end marker `FF D9`
exactly at the last two bytes, and neither occurs anywhere else. -/
def ValidFrame (f : List Nat) : Prop :=
  4 ≤ f.length ∧
  (∀ i < f.length, (MarkerAt 0xD8 f i ↔ i = 0)) ∧
  (∀ i < f.length, (MarkerAt 0xD9 f i ↔ i = f.length - 2))

instance (f : List Nat) : Decidable (ValidFrame f) := by
  unfold ValidFrame
  infer_instance

lemma extractFramesAux_succ (fuel : Nat) (buf : List Nat) :
    extractFramesAux (fuel+1) buf =
      if (findMarker 0xD8 buf).isSome && (findMarker 0xD9 buf).isSome then
        let s := (findMarker 0xD8 buf).getD 0
        let e := match findMarkerFrom 0xD9 buf s with
                 | some j => j + 2
                 | none => 1
        if s < e then
          let r := extractFramesAux fuel (buf.drop e)
          (((buf.drop s).take (e - s)) :: r.1, r.2)
        else ([], buf)
      else ([], buf) := rfl

lemma feedChunks_cons (c : List Nat) (cs : List (List Nat)) (buf : List Nat) :
    feedChunks (c :: cs) buf =
      ((extractFrames (buf ++ c)).1 ++
        (feedChunks cs (extractFrames (buf ++ c)).2).1,
       (feedChunks cs (extractFrames (buf ++ c)).2).2) := rfl

lemma getElem?_zero_eq_head? {α : Type} (l : List α) : l[0]? = l.head? := by
  cases l <;> simp

lemma markerAt_lt {m : Nat} {s : List Nat} {i : Nat} (h : MarkerAt m s i) :
    i + 1 < s.length :=
  (List.getElem?_eq_some.mp h.2).1

lemma markerAt_cons_succ {m a : Nat} {l : List Nat} {i : Nat} :
    MarkerAt m (a :: l) (i+1) ↔ MarkerAt m l i := by
  unfold MarkerAt
  rw [List.getElem?_cons_succ, List.getElem?_cons_succ]

lemma markerAt_cons_zero {m a : Nat} {l : List Nat} :
    MarkerAt m (a :: l) 0 ↔ (a = 0xFF ∧ l.head? = some m) := by
  unfold MarkerAt
  rw [List.getElem?_cons_zero, List.getElem?_cons_succ,
    getElem?_zero_eq_head?]
  simp

lemma findMarker_eq_some_iff {m : Nat} :
    ∀ {s : List Nat} {i : Nat},
      findMarker m s = some i ↔
        (MarkerAt m s i ∧ ∀ j, j < i → ¬ MarkerAt m s j) := by
  intro s
  induction s with
  | nil =>
    intro i
    constructor
    · intro h
      simp [findMarker] at h
    · rintro ⟨h, -⟩
      exact absurd h.1 (by simp)
  | cons a l ih =>
    intro i
    rw [show findMarker m (a :: l) =
        (if a = 0xFF ∧ l.head? = some m then some 0
         else (findMarker m l).map (· + 1)) from rfl]
    by_cases hc : a = 0xFF ∧ l.head? = some m
    · rw [if_pos hc]
      constructor
      · intro h
        have hi : i = 0 := by
          have := Option.some.injEq .. ▸ h
          omega
        subst hi
        exact ⟨markerAt_cons_zero.mpr hc, fun j hj => absurd hj (by omega)⟩
      · rintro ⟨hM, hmin⟩
        cases i with
        | zero => rfl
        | succ n =>
          exact absurd (markerAt_cons_zero.mpr hc) (hmin 0 (Nat.succ_pos n))
    · rw [if_neg hc]
      constructor
      · intro h
        rcases Option.map_eq_some'.mp h with ⟨i', hi', rfl⟩
        obtain ⟨hM, hmin⟩ := ih.mp hi'
        refine ⟨markerAt_cons_succ.mpr hM, ?_⟩
        intro j hj
        cases j with
        | zero =>
          rw [markerAt_cons_zero]
          exact hc
        | succ j' =>
          rw [markerAt_cons_succ]
          exact hmin j' (by omega)
      · rintro ⟨hM, hmin⟩
        cases i with
        | zero => exact absurd (markerAt_cons_zero.mp hM) hc
        | succ n =>
          have hM' := markerAt_cons_succ.mp hM
          have hmin' : ∀ j, j < n → ¬ MarkerAt m l j := by
            intro j hj hx
            exact hmin (j+1) (by omega) (markerAt_cons_succ.mpr hx)
          rw [ih.mpr ⟨hM', hmin'⟩]
          rfl

lemma findMarker_eq_none_iff {m : Nat} :
    ∀ {s : List Nat}, findMarker m s = none ↔ ∀ i, ¬ MarkerAt m s i := by
  intro s
  induction s with
  | nil =>
    constructor
    · intro h i hM
      exact absurd hM.1 (by simp)
    · intro h
      rfl
  | cons a l ih =>
    rw [show findMarker m (a :: l) =
        (if a = 0xFF ∧ l.head? = some m then some 0
         else (findMarker m l).map (· + 1)) from rfl]
    by_cases hc : a = 0xFF ∧ l.head? = some m
    · rw [if_pos hc]
      constructor
      · intro h
        simp at h
      · intro h
        exact absurd (markerAt_cons_zero.mpr hc) (h 0)
    · rw [if_neg hc]
      constructor
      · intro h i
        have hl : findMarker m l = none := by
          cases hf : findMarker m l with
          | none => rfl
          | some v => rw [hf] at h; simp at h
        cases i with
        | zero =>
          rw [markerAt_cons_zero]
          exact hc
        | succ n =>
          rw [markerAt_cons_succ]
          exact ih.mp hl n
      · intro h
        have hl : findMarker m l = none :=
          ih.mpr (fun i hx => h (i+1) (markerAt_cons_succ.mpr hx))
        rw [hl]
        rfl

lemma markerAt_append_left {m : Nat} {s t : List Nat} {i : Nat}
    (h : MarkerAt m s i) : MarkerAt m (s ++ t) i := by
  have hlt := markerAt_lt h
  unfold MarkerAt at h ⊢
  rw [List.getElem?_append_left (by omega : i < s.length),
    List.getElem?_append_left hlt]
  exact h

lemma markerAt_of_append {m : Nat} {s t : List Nat} {i : Nat}
    (hlt : i + 1 < s.length) (h : MarkerAt m (s ++ t) i) : MarkerAt m s i := by
  unfold MarkerAt at h ⊢
  rw [List.getElem?_append_left (by omega : i < s.length),
    List.getElem?_append_left hlt] at h
  exact h

lemma ValidFrame.d8_zero {f : List Nat} (hf : ValidFrame f) :
    MarkerAt 0xD8 f 0 := by
  have h4 := hf.1
  exact (hf.2.1 0 (by omega)).mpr rfl

lemma ValidFrame.d9_end {f : List Nat} (hf : ValidFrame f) :
    MarkerAt 0xD9 f (f.length - 2) := by
  have h4 := hf.1
  exact (hf.2.2 (f.length - 2) (by omega)).mpr rfl

lemma ValidFrame.not_d9 {f : List Nat} (hf : ValidFrame f) {i : Nat}
    (hne : i ≠ f.length - 2) : ¬ MarkerAt 0xD9 f i := by
  intro h
  have hlt := markerAt_lt h
  exact hne ((hf.2.2 i (by omega)).mp h)

lemma findMarker_d8_append {f : List Nat} (hf : ValidFrame f)
    (t : List Nat) : findMarker 0xD8 (f ++ t) = some 0 :=
  findMarker_eq_some_iff.mpr
    ⟨markerAt_append_left hf.d8_zero, fun j hj => absurd hj (by omega)⟩

lemma findMarker_d9_append {f : List Nat} (hf : ValidFrame f)
    (t : List Nat) : findMarker 0xD9 (f ++ t) = some (f.length - 2) := by
  apply findMarker_eq_some_iff.mpr
  refine ⟨markerAt_append_left hf.d9_end, ?_⟩
  intro j hj hM
  have h4 := hf.1
  have hjs : j + 1 < f.length := by omega
  exact hf.not_d9 (by omega) (markerAt_of_append hjs hM)

lemma noD9_of_proper_pre {f p u : List Nat} (hf : ValidFrame f)
    (hpu : p ++ u = f) (hlt : p.length < f.length) :
    findMarker 0xD9 p = none := by
  rw [findMarker_eq_none_iff]
  intro i hM
  have hi := markerAt_lt hM
  have hMf : MarkerAt 0xD9 f i := by
    rw [← hpu]
    exact markerAt_append_left hM
  have h4 := hf.1
  exact hf.not_d9 (by omega) hMf

lemma flatten_len_ge {gs : List (List Nat)} (hv : ∀ f ∈ gs, ValidFrame f) :
    gs.length ≤ gs.flatten.length := by
  induction gs with
  | nil => simp
  | cons f gs' ih =>
    rw [List.flatten_cons, List.length_append]
    have h1 := (hv f (List.mem_cons_self ..)).1
    have h2 := ih (fun g hg => hv g (List.mem_cons_of_mem _ hg))
    simp only [List.length_cons]
    omega

lemma extractFramesAux_stream :
    ∀ (gs : List (List Nat)) (p : List Nat) (fuel : Nat),
      (∀ f ∈ gs, ValidFrame f) → findMarker 0xD9 p = none →
      gs.length ≤ fuel →
      extractFramesAux fuel (gs.flatten ++ p) = (gs, p) := by
  intro gs
  induction gs with
  | nil =>
    intro p fuel hv hp hfuel
    rw [show (([] : List (List Nat)).flatten ++ p) = p by simp]
    cases fuel with
    | zero => rfl
    | succ n =>
      rw [extractFramesAux_succ, hp]
      simp
  | cons f gs' ih =>
    intro p fuel hv hp hfuel
    have hf : ValidFrame f := hv f (List.mem_cons_self ..)
    have hv' : ∀ g ∈ gs', ValidFrame g :=
      fun g hg => hv g (List.mem_cons_of_mem _ hg)
    cases fuel with
    | zero => simp at hfuel
    | succ n =>
      have h4 := hf.1
      rw [show ((f :: gs').flatten ++ p) = f ++ (gs'.flatten ++ p) by
        rw [List.flatten_cons, List.append_assoc]]
      rw [extractFramesAux_succ,
        findMarker_d8_append hf (gs'.flatten ++ p),
        findMarker_d9_append hf (gs'.flatten ++ p)]
      simp only [Option.isSome_some, Bool.and_self, if_true, Option.getD_some,
        findMarkerFrom, List.drop_zero,
        findMarker_d9_append hf (gs'.flatten ++ p), Option.map_some',
        Nat.add_zero, Nat.sub_zero]
      rw [if_pos (by omega : 0 < f.length - 2 + 2)]
      rw [show f.length - 2 + 2 = f.length by omega]
      rw [List.take_left, List.drop_left]
      rw [ih p n hv' hp (by simp at hfuel; omega)]

lemma extractFrames_stream {gs : List (List Nat)} {p : List Nat}
    (hv : ∀ f ∈ gs, ValidFrame f) (hp : findMarker 0xD9 p = none) :
    extractFrames (gs.flatten ++ p) = (gs, p) := by
  unfold extractFrames
  apply extractFramesAux_stream gs p _ hv hp
  rw [List.length_append]
  have := flatten_len_ge hv
  omega

lemma stream_decompose :
    ∀ (fs : List (List Nat)) (s t : List Nat),
      (∀ f ∈ fs, ValidFrame f) → s ++ t = fs.flatten →
      ∃ gs hs p, fs = gs ++ hs ∧ s = gs.flatten ++ p ∧
        findMarker 0xD9 p = none ∧ p ++ t = hs.flatten := by
  intro fs
  induction fs with
  | nil =>
    intro s t hv h
    rw [List.flatten_nil] at h
    obtain ⟨hs0, ht0⟩ := List.append_eq_nil.mp h
    subst hs0
    subst ht0
    exact ⟨[], [], [], rfl, rfl, rfl, rfl⟩
  | cons f fs' ih =>
    intro s t hv h
    have hf : ValidFrame f := hv f (List.mem_cons_self ..)
    rw [List.flatten_cons] at h
    by_cases hlen : s.length < f.length
    · have hpre : s = f.take s.length := by
        have h1 : s = (s ++ t).take s.length := (List.take_left ..).symm
        rw [h, List.take_append_eq_append_take,
          show s.length - f.length = 0 by omega] at h1
        simpa using h1
      have hnod9 : findMarker 0xD9 s = none := by
        apply noD9_of_proper_pre hf (u := f.drop s.length) ?_ hlen
        nth_rewrite 1 [hpre]
        exact List.take_append_drop ..
      refine ⟨[], f :: fs', s, rfl, by simp, hnod9, ?_⟩
      rw [List.flatten_cons]
      exact h
    · push_neg at hlen
      have hsf : s = f ++ s.drop f.length := by
        have h1 : f = (s ++ t).take f.length := by
          rw [h, List.take_left]
        have h2 : (s ++ t).take f.length = s.take f.length := by
          rw [List.take_append_eq_append_take,
            show f.length - s.length = 0 by omega]
          simp
        calc s = s.take f.length ++ s.drop f.length :=
              (List.take_append_drop ..).symm
          _ = f ++ s.drop f.length := by rw [← h2, ← h1]
      have hrec : s.drop f.length ++ t = fs'.flatten := by
        have h3 := h
        rw [hsf, List.append_assoc] at h3
        have h4 := congrArg (List.drop f.length) h3
        simpa [List.drop_left] using h4
      obtain ⟨gs, hs, p, hfs, hsplit, hnod9, hrest⟩ :=
        ih (s.drop f.length) t
          (fun g hg => hv g (List.mem_cons_of_mem _ hg)) hrec
      refine ⟨f :: gs, hs, p, by rw [List.cons_append, hfs], ?_, hnod9, hrest⟩
      rw [hsf, hsplit, List.flatten_cons, List.append_assoc]

lemma feedChunks_stream :
    ∀ (chunks fs : List (List Nat)) (p : List Nat),
      (∀ f ∈ fs, ValidFrame f) → findMarker 0xD9 p = none →
      p ++ chunks.flatten = fs.flatten →
      (feedChunks chunks p).1 = fs := by
  intro chunks
  induction chunks with
  | nil =>
    intro fs p hv hp h
    rw [List.flatten_nil, List.append_nil] at h
    cases fs with
    | nil => rfl
    | cons f fs' =>
      exfalso
      have hf : ValidFrame f := hv f (List.mem_cons_self ..)
      rw [h, List.flatten_cons, findMarker_d9_append hf fs'.flatten] at hp
      simp at hp
  | cons c cs ih =>
    intro fs p hv hp h
    rw [List.flatten_cons, ← List.append_assoc] at h
    obtain ⟨gs, hs, p', hfs, hsplit, hp', hrest⟩ :=
      stream_decompose fs (p ++ c) cs.flatten hv h
    have hgs : ∀ g ∈ gs, ValidFrame g :=
      fun g hg => hv g (hfs ▸ List.mem_append_left _ hg)
    have hhs : ∀ g ∈ hs, ValidFrame g :=
      fun g hg => hv g (hfs ▸ List.mem_append_right _ hg)
    have hext : extractFrames (p ++ c) = (gs, p') := by
      rw [hsplit]
      exact extractFrames_stream hgs hp'
    rw [feedChunks_cons]
    simp only [hext]
    rw [ih hs p' hhs hp' hrest, hfs]

/-- Claim C1: for every byte stream that is a concatenation of valid JPEG
frames (start marker `FF D8`, end marker `FF D9`, neither occurring
elsewhere in a frame), however it is split into stdout chunks, the reader
loop emits exactly those frames, byte-identical and in order. -/
theorem c1_splitter_exact (fs chunks : List (List Nat))
    (hv : ∀ f ∈ fs, ValidFrame f) (hc : chunks.flatten = fs.flatten) :
    (feedChunks chunks []).1 = fs := by
  apply feedChunks_stream chunks fs [] hv rfl
  simpa using hc

/-- A 7-byte frame and a 5-byte frame used to instantiate the splitter
theorems. -/
def frameA : List Nat := [0xFF, 0xD8, 1, 2, 3, 0xFF, 0xD9]

def frameB : List Nat := [0xFF, 0xD8, 9, 0xFF, 0xD9]

/-- A chunking of `frameA ++ frameB` that splits both markers across chunk
boundaries. -/
def chunksAB : List (List Nat) :=
  [[0xFF], [0xD8, 1, 2], [3, 0xFF, 0xD9, 0xFF, 0xD8, 9], [0xFF, 0xD9]]

/-- Concrete instantiation of `c1_splitter_exact`: two frames split across
four chunks are reassembled exactly. -/
theorem c1_witness : (feedChunks chunksAB []).1 = [frameA, frameB] :=
  c1_splitter_exact [frameA, frameB] chunksAB (by decide) (by decide)

/-! ### Claim C7: the unconsumed buffer is not capped -/

lemma extractFramesAux_no_d8 {buf : List Nat}
    (h : findMarker 0xD8 buf = none) :
    ∀ fuel, extractFramesAux fuel buf = ([], buf) := by
  intro fuel
  cases fuel with
  | zero => rfl
  | succ n =>
    rw [extractFramesAux_succ, h]
    simp

lemma extractFrames_no_d8 {buf : List Nat}
    (h : findMarker 0xD8 buf = none) : extractFrames buf = ([], buf) :=
  extractFramesAux_no_d8 h _

lemma findMarker_eq_none_of_no_ff {l : List Nat}
    (h : ∀ b ∈ l, b ≠ 0xFF) (m : Nat) : findMarker m l = none := by
  rw [findMarker_eq_none_iff]
  intro i hM
  have h1 := hM.1
  have h2 : (0xFF : Nat) ∈ l := by
    have := List.getElem?_eq_some.mp h1
    obtain ⟨hlt, he⟩ := this
    exact he ▸ List.getElem_mem ..
  exact h _ h2 rfl

lemma feedChunks_no_ff :
    ∀ (chunks : List (List Nat)) (buf : List Nat),
      (∀ b ∈ buf, b ≠ 0xFF) → (∀ c ∈ chunks, ∀ b ∈ c, b ≠ 0xFF) →
      feedChunks chunks buf = ([], buf ++ chunks.flatten) := by
  intro chunks
  induction chunks with
  | nil =>
    intro buf h1 h2
    simp [feedChunks]
  | cons c cs ih =>
    intro buf h1 h2
    have hbc : ∀ b ∈ buf ++ c, b ≠ 0xFF := by
      intro b hb
      rcases List.mem_append.mp hb with hx | hx
      · exact h1 b hx
      · exact h2 c (List.mem_cons_self ..) b hx
    rw [feedChunks_cons,
      extractFrames_no_d8 (findMarker_eq_none_of_no_ff hbc 0xD8)]
    rw [show (([], buf ++ c) : List (List Nat) × List Nat).2 = buf ++ c
      from rfl]
    rw [ih (buf ++ c) hbc (fun c' hc' => h2 c' (List.mem_cons_of_mem _ hc'))]
    simp [List.flatten_cons, List.append_assoc]

/-- Claim C7 counterexample: the reader never drops buffered data, so no
fixed cap bounds the unconsumed buffer — for every candidate cap, feeding
one marker-free chunk of `cap + 1` bytes leaves a buffer longer than the
cap. -/
theorem c7_counterexample :
    ¬ ∃ cap : Nat, ∀ chunks : List (List Nat),
        (feedChunks chunks []).2.length ≤ cap := by
  rintro ⟨cap, h⟩
  have hff : ∀ c ∈ [List.replicate (cap+1) (0:Nat)], ∀ b ∈ c, b ≠ 0xFF := by
    intro c hc b hb
    rw [List.eq_of_mem_singleton hc] at hb
    rw [List.eq_of_mem_replicate hb]
    decide
  have heq := feedChunks_no_ff [List.replicate (cap+1) 0] [] (by simp) hff
  have hlen := h [List.replicate (cap+1) 0]
  rw [heq] at hlen
  simp at hlen

/-- Claim C7 amended: the unconsumed buffer is unbounded — the splitter
never drops data; on chunks containing no `FF` byte (hence no marker) the
buffer accumulates every byte fed and no frame is emitted. -/
theorem c7_amended (chunks : List (List Nat))
    (h : ∀ c ∈ chunks, ∀ b ∈ c, b ≠ 0xFF) :
    (feedChunks chunks []).1 = [] ∧
      (feedChunks chunks []).2 = chunks.flatten := by
  rw [feedChunks_no_ff chunks [] (by simp) h]
  simp

/-- Concrete instantiation of `c7_amended`. -/
theorem c7_witness :
    (feedChunks [[1, 2], [3]] []).1 = [] ∧
      (feedChunks [[1, 2], [3]] []).2 = [1, 2, 3] := by
  have h := c7_amended [[1, 2], [3]] (by decide)
  exact ⟨h.1, h.2.trans rfl⟩

/-! ### Metadata tail reader (`_monitor_metadata` / `_parse_metadata_content`)

The monitor keeps a byte offset `last_position`; each poll does
`f.seek(last_position); new_content = f.read(); last_position = f.tell()`
and hands `new_content` to `_parse_metadata_content`, which splits it into
lines, strips whitespace and trailing commas, skips empty/`[`/`]` framing
lines, and attempts `json.loads` on each fragment independently
(`JSONDecodeError` → the fragment is skipped).

The file content is a `List Char`.  `jsonDecodes` models `json.loads`
acceptance for the JSON subset occurring in rpicam metadata records
(objects, arrays, strings without escape sequences, numbers, `true`,
`false`, `null`); the strict leading-zero rule of JSON numbers is not
modelled, which is immaterial here. -/

def lbrace : Char := Char.ofNat 123

def rbrace : Char := Char.ofNat 125

/-- Python `str.strip` whitespace set (ASCII part). -/
def isSpaceChar (c : Char) : Bool :=
  c = ' ' || c = '\t' || c = '\n' || c = '\r' || c = '\x0b' || c = '\x0c'

def skipWs (cs : List Char) : List Char := cs.dropWhile isSpaceChar

/-- Scan the remainder of a JSON string literal (no escape handling, as
metadata records contain none) up to the closing quote. -/
def parseStringRest : List Char → Option (List Char)
  | [] => none
  | c :: r => if c = '\"' then some r else parseStringRest r

/-- Consume an expected literal character sequence. -/
def expectLit : List Char → List Char → Option (List Char)
  | [], cs => some cs
  | l :: ls, c :: cs => if c = l then expectLit ls cs else none
  | _ :: _, [] => none

/-- Consume a JSON number (sign, digits, optional fraction and exponent). -/
def parseNumber (cs : List Char) : Option (List Char) :=
  let cs1 := match cs with
    | c :: r => if c = '-' then r else cs
    | [] => cs
  match cs1 with
  | c :: _ =>
    if c.isDigit then
      let r1 := cs1.dropWhile Char.isDigit
      let r2 := match r1 with
        | c2 :: d :: r =>
          if c2 = '.' && d.isDigit then (d :: r).dropWhile Char.isDigit
          else r1
        | _ => r1
      let r3 := match r2 with
        | c3 :: rest =>
          if c3 = 'e' || c3 = 'E' then
            let restS := match rest with
              | s :: r => if s = '+' || s = '-' then r else rest
              | [] => rest
            match restS with
            | d :: _ =>
              if d.isDigit then restS.dropWhile Char.isDigit else r2
            | [] => r2
          else r2
        | [] => r2
      some r3
    else none
  | [] => none

/-- The three productions of the recursive-descent JSON reader: a value,
the members of an object after `{`, the items of an array after `[`. -/
inductive JM where
  | val
  | members
  | items

/-- Fuelled recursive-descent JSON recogniser: returns the unconsumed
remainder on success.  One fuel unit per nesting step; fuel
`length + 1` always suffices since each step consumes at least one
character. -/
def jparse : Nat → JM → List Char → Option (List Char)
  | 0, _, _ => none
  | fuel+1, JM.val, cs =>
    match cs with
    | [] => none
    | c :: rest =>
      if c = lbrace then
        let cs1 := skipWs rest
        if cs1.head? = some rbrace then some cs1.tail
        else jparse fuel JM.members cs1
      else if c = '[' then
        let cs1 := skipWs rest
        if cs1.head? = some ']' then some cs1.tail
        else jparse fuel JM.items cs1
      else if c = '\"' then parseStringRest rest
      else if c = 't' then expectLit ['r', 'u', 'e'] rest
      else if c = 'f' then expectLit ['a', 'l', 's', 'e'] rest
      else if c = 'n' then expectLit ['u', 'l', 'l'] rest
      else if c = '-' || c.isDigit then parseNumber (c :: rest)
      else none
  | fuel+1, JM.members, cs =>
    match cs with
    | c :: rest =>
      if c = '\"' then
        match parseStringRest rest with
        | none => none
        | some r1 =>
          match skipWs r1 with
          | c2 :: r2 =>
            if c2 = ':' then
              match jparse fuel JM.val (skipWs r2) with
              | none => none
              | some r3 =>
                match skipWs r3 with
                | c3 :: r4 =>
                  if c3 = ',' then jparse fuel JM.members (skipWs r4)
                  else if c3 = rbrace then some r4
                  else none
                | [] => none
            else none
          | [] => none
      else none
    | [] => none
  | fuel+1, JM.items, cs =>
    match jparse fuel JM.val cs with
    | none => none
    | some r1 =>
      match skipWs r1 with
      | c :: r2 =>
        if c = ',' then jparse fuel JM.items (skipWs r2)
        else if c = ']' then some r2
        else none
      | [] => none

/-- `json.loads(fragment)` succeeds: a single JSON value surrounded only by
whitespace. -/
def jsonDecodes (frag : List Char) : Bool :=
  match jparse (frag.length + 1) JM.val (skipWs frag) with
  | some rest => (skipWs rest).isEmpty
  | none => false

/-- Python `content.split('\n')` (keeps empty pieces). -/
def splitNl : List Char → List (List Char)
  | [] => [[]]
  | c :: rest =>
    if c = '\n' then [] :: splitNl rest
    else
      match splitNl rest with
      | [] => [[c]]
      | p :: ps => (c :: p) :: ps

/-- Python `str.strip()`. -/
def stripChars (cs : List Char) : List Char :=
  ((cs.dropWhile isSpaceChar).reverse.dropWhile isSpaceChar).reverse

/-- Python `str.rstrip(',')`. -/
def rstripComma (cs : List Char) : List Char :=
  (cs.reverse.dropWhile (fun c => c = ',')).reverse

/-- The fragments `_parse_metadata_content` attempts to decode from a read
region: split the stripped content on newlines, strip each line and its
trailing commas, and drop empty lines and the `[` / `]` array framing
lines. -/
def fragmentsOf (region : List Char) : List (List Char) :=
  (splitNl (stripChars region)).filterMap (fun l =>
    let l2 := rstripComma (stripChars l)
    if l2.isEmpty || l2 = ['['] || l2 = [']'] then none else some l2)

/-- Every fragment of the region decodes as a complete JSON value. -/
def allFragmentsValid (region : List Char) : Bool :=
  (fragmentsOf region).all jsonDecodes

/-- One poll of `_monitor_metadata` against file content `s` from stored
offset `p`: `f.seek(p); new_content = f.read(); last_position = f.tell()`
gives the new offset (end of file) and the text handed to the parser.  The
new offset does not depend on any parse outcome. -/
def monitorPoll (s : List Char) (p : Nat) : Nat × List Char :=
  (max p s.length, s.drop p)

/-- A metadata file whose first line is a complete record and whose second
line is a partially-written record. -/
def badMeta : List Char := ("\x7b\"a\": 1\x7d\n\x7b\"b\"").toList

/-- Claim C5 counterexample: the poll advances the stored offset to end of
file even when the consumed region ends in a fragment that does not decode
(here the partially-written second line), so the offset does not advance
"only past valid, complete fragments". -/
theorem c5_counterexample :
    ¬ (∀ (s : List Char) (p : Nat), p ≤ s.length →
        allFragmentsValid ((s.drop p).take ((monitorPoll s p).1 - p)) =
          true) := by
  intro h
  have hb := h badMeta 0 (by omega)
  exact absurd hb (by decide)

/-- Claim C5 amended: on every poll the offset unconditionally advances to
the end of the file regardless of whether the newly read fragments decode;
a fragment that fails to decode is consumed anyway, and only bytes beyond
the previous end of file are read on the next poll, so failed fragments
are never re-attempted. -/
theorem c5_amended (s : List Char) (p : Nat) (hp : p ≤ s.length) :
    monitorPoll s p = (s.length, s.drop p) := by
  unfold monitorPoll
  rw [Nat.max_eq_right hp]

/-- Concrete instantiation of `c5_amended`: polling `badMeta` from offset 5
reads to end of file and consumes everything after offset 5. -/
theorem c5_witness : monitorPoll badMeta 5 = (badMeta.length, badMeta.drop 5) :=
  c5_amended badMeta 5 (by decide)

/-! ### Engine lifecycle and caller-facing reads (C9)

State machine for the slots read by `get_frame` / `get_detections`:
`__init__` sets `_running = False`, `_current_frame = None`,
`_latest_detections = []`, `_consecutive_person_frames = 0`.  `start()` is
a no-op when already running, else sets `_running = True`; `stop()` is a
no-op when not running, else sets `_running = False` — it kills the
process and removes the metadata file but does **not** clear
`_current_frame` or `_latest_detections`.  While running, the MJPEG reader
stores each extracted frame in `_current_frame`, and each metadata record
runs `_extract_detections` (decode + temporal filter).  `get_frame` and
`get_detections` simply return the slots. -/

structure EngineState where
  running : Bool
  current_frame : Option (List Nat)
  latest_detections : List Detection
  consecutive : Nat
deriving DecidableEq

def initState : EngineState := ⟨false, none, [], 0⟩

/-- The events that mutate the engine state. -/
inductive EngineOp where
  | start
  | stop
  | frame (bytes : List Nat)
  | record (tensor : List ℚ)
deriving DecidableEq

def engineStep (s : EngineState) (o : EngineOp) : EngineState :=
  match o with
  | .start => if s.running then s else { s with running := true }
  | .stop => if s.running then { s with running := false } else s
  | .frame b => if s.running then { s with current_frame := some b } else s
  | .record t =>
    if s.running then
      if 600 ≤ t.length then
        let dets := extractSlots t 100 0
        let c := if 0 < dets.length then s.consecutive + 1 else 0
        { s with consecutive := c,
                 latest_detections := if 3 ≤ c then dets else [] }
      else s
    else s

def runOps (ops : List EngineOp) : EngineState :=
  ops.foldl engineStep initState

def get_frame (s : EngineState) : Option (List Nat) := s.current_frame

def get_detections (s : EngineState) : List Detection := s.latest_detections

/-- Claim C9 counterexample: after `start`, a frame arrival and `stop`, the
engine is not running, yet `get_frame` returns the stale last frame rather
than an "unavailable" signal — `stop()` does not clear the slots. -/
theorem c9_counterexample :
    ¬ (∀ ops : List EngineOp, (runOps ops).running = false →
        get_frame (runOps ops) = none ∧
          get_detections (runOps ops) = []) := by
  intro h
  have hrun : (runOps [EngineOp.start, EngineOp.frame [1],
      EngineOp.stop]).running = false := by decide
  have hc := h [EngineOp.start, EngineOp.frame [1], EngineOp.stop] hrun
  exact absurd hc.1 (by decide)

/-- The slot loop output on `testTensor` (the form `engineStep` uses when
processing a record: the per-record decode inside `_extract_detections`). -/
lemma extractSlots_testTensor : extractSlots testTensor 100 0 = [decodedDet] := by
  have h := extract_testTensor
  rwa [extract_detections,
    if_pos (by decide : (600:Nat) ≤ testTensor.length)] at h

/-- Claim C9 amended: before the engine is ever started the reads do
return the unavailable signal (`None` frame, empty detections) — any
history without a `start` leaves the engine in its initial state; but
`stop` clears neither slot, so after `stop` both the last frame and the
last published detection list remain readable as stale values: `stop`
preserves `get_frame` and `get_detections` in every state, a stopped
engine still returns the last frame, and after three detecting records
followed by `stop` it still returns the nonempty stale detection list. -/
theorem c9_amended :
    (∀ ops : List EngineOp, EngineOp.start ∉ ops → runOps ops = initState) ∧
    get_frame initState = none ∧ get_detections initState = [] ∧
    (∀ s : EngineState,
      get_frame (engineStep s EngineOp.stop) = get_frame s ∧
        get_detections (engineStep s EngineOp.stop) = get_detections s) ∧
    (∀ b : List Nat,
      get_frame (runOps [EngineOp.start, EngineOp.frame b, EngineOp.stop]) =
        some b) ∧
    get_detections (runOps [EngineOp.start, EngineOp.record testTensor,
        EngineOp.record testTensor, EngineOp.record testTensor,
        EngineOp.stop]) = [decodedDet] := by
  refine ⟨?_, rfl, rfl, ?_, fun b => rfl, ?_⟩
  · intro ops hs
    induction ops with
    | nil => rfl
    | cons o os ih =>
      have ho : o ≠ EngineOp.start := by
        intro he
        exact hs (he ▸ List.mem_cons_self ..)
      have hos : EngineOp.start ∉ os :=
        fun hm => hs (List.mem_cons_of_mem _ hm)
      have hstep : engineStep initState o = initState := by
        cases o with
        | start => exact absurd rfl ho
        | stop => rfl
        | frame b => rfl
        | record t => rfl
      rw [runOps, List.foldl_cons, hstep]
      simpa [runOps] using ih hos
  · intro s
    cases hr : s.running <;>
      simp [engineStep, get_frame, get_detections, hr]
  · have h600 : (600:Nat) ≤ testTensor.length := by decide
    simp [runOps, engineStep, initState, get_detections,
      extractSlots_testTensor, h600]

/-- Concrete instantiation of `c9_amended`: a `stop` with no prior `start`
leaves the initial (unavailable) state. -/
theorem c9_witness : runOps [EngineOp.stop] = initState :=
  c9_amended.1 [EngineOp.stop] (by decide)

end RPiCam
